import Mathlib

/-!
Verification of the SBDP (Simple Binary Dictionary Protocol) codec and
transport from `sbdp.py`.

Modelling conventions (shallow embedding of the Python source):
* Python `bytes` values are `List Nat`, one entry per byte (entries < 256
  whenever produced by the encoder).
* A Python `str` is identified with its UTF-8 byte sequence (`List Nat`);
  `str.encode('utf-8')` is then the identity and `bytes.decode('utf-8')`
  is a validity check (`utf8Valid`) returning the same bytes.
* Python slicing `b[i:j]` clamps out-of-range indices; `pySlice` reproduces
  that.  `struct.unpack` raises `struct.error` when the buffer size differs
  from the format size; the `unpackBE` helper returns `none` in that case.
* A raised exception is modelled by `Except.error` with one constructor per
  distinct raise site / exception class.
* A socket is a finite list of chunks (`List (List Nat)`); `sock.recv(k)`
  yields at most `k` bytes from the front chunk, and an empty chunk (or an
  exhausted stream) models the peer having closed the connection.
-/

/-- Big-endian bytes of `n`, `w` bytes wide (value taken mod `2^(8*w)`),
most significant byte first — the byte layout of `struct.pack` with the
network-order formats `!B`, `!H`, `!I`, `!Q`. -/
def beBytes : Nat → Nat → List Nat
  | 0, _ => []
  | w + 1, n => beBytes w (n / 256) ++ [n % 256]

/-- Big-endian value of a byte list — the numeric reading done by
`struct.unpack` with an unsigned network-order format. -/
def beNat (bs : List Nat) : Nat :=
  bs.foldl (fun acc b => acc * 256 + b) 0

/-- Python slice `bs[i:j]` (for `i ≤ j`): clamps silently instead of
failing when the range runs past the end of the buffer. -/
def pySlice (bs : List Nat) (i j : Nat) : List Nat :=
  (bs.drop i).take (j - i)

/-- `struct.unpack` of one unsigned big-endian field of byte width `w`:
Python raises `struct.error` unless the buffer holds exactly `w` bytes. -/
def unpackBE (w : Nat) (bs : List Nat) : Option Nat :=
  if bs.length = w then some (beNat bs) else none

/-- Reading of a 64-bit pattern as the signed value of `struct.unpack('!q', ·)`
(two's complement). -/
def toI64 (n : Nat) : Int :=
  if n < 2 ^ 63 then (n : Int) else (n : Int) - 2 ^ 64

/-- Is `b` a UTF-8 continuation byte (`0x80`–`0xBF`)? -/
def utf8Cont (b : Nat) : Bool :=
  decide (0x80 ≤ b ∧ b ≤ 0xBF)

/-- RFC 3629 UTF-8 validity of a byte sequence, as checked by CPython's
`bytes.decode('utf-8')`: no overlong forms, no surrogates, max U+10FFFF. -/
def utf8Valid : List Nat → Bool
  | [] => true
  | b :: rest =>
    if b ≤ 0x7F then utf8Valid rest
    else if 0xC2 ≤ b ∧ b ≤ 0xDF then
      match rest with
      | c1 :: rest' => utf8Cont c1 && utf8Valid rest'
      | [] => false
    else if b = 0xE0 then
      match rest with
      | c1 :: c2 :: rest' =>
        decide (0xA0 ≤ c1 ∧ c1 ≤ 0xBF) && utf8Cont c2 && utf8Valid rest'
      | _ => false
    else if (0xE1 ≤ b ∧ b ≤ 0xEC) ∨ (0xEE ≤ b ∧ b ≤ 0xEF) then
      match rest with
      | c1 :: c2 :: rest' => utf8Cont c1 && utf8Cont c2 && utf8Valid rest'
      | _ => false
    else if b = 0xED then
      match rest with
      | c1 :: c2 :: rest' =>
        decide (0x80 ≤ c1 ∧ c1 ≤ 0x9F) && utf8Cont c2 && utf8Valid rest'
      | _ => false
    else if b = 0xF0 then
      match rest with
      | c1 :: c2 :: c3 :: rest' =>
        decide (0x90 ≤ c1 ∧ c1 ≤ 0xBF) && utf8Cont c2 && utf8Cont c3 &&
          utf8Valid rest'
      | _ => false
    else if 0xF1 ≤ b ∧ b ≤ 0xF3 then
      match rest with
      | c1 :: c2 :: c3 :: rest' =>
        utf8Cont c1 && utf8Cont c2 && utf8Cont c3 && utf8Valid rest'
      | _ => false
    else if b = 0xF4 then
      match rest with
      | c1 :: c2 :: c3 :: rest' =>
        decide (0x80 ≤ c1 ∧ c1 ≤ 0x8F) && utf8Cont c2 && utf8Cont c3 &&
          utf8Valid rest'
      | _ => false
    else false

/-- The tagged values of SBDP: the Python `(type_str, value)` pairs
`("int64", i)`, `("uint64", u)`, `("float64", f)`, `("string", s)`,
`("binary", b)`.  A float is carried as its 64-bit IEEE-754 pattern
(`struct.pack('!d')` / `unpack` move floats bitwise). -/
inductive TVal where
  | int64 (v : Int)
  | uint64 (v : Nat)
  | float64 (bits : Nat)
  | str (s : List Nat)
  | binary (b : List Nat)
deriving DecidableEq, Repr

/-- A Python dict with `str` keys and tagged values, as an association list
in insertion order. -/
abbrev Dict := List (List Nat × TVal)

/-- Python `d[k] = v`: overwrite in place when the key exists (keeping its
position), append otherwise. -/
def dictInsert : Dict → List Nat → TVal → Dict
  | [], k, v => [(k, v)]
  | (k0, v0) :: rest, k, v =>
    if k0 = k then (k0, v) :: rest else (k0, v0) :: dictInsert rest k v

/-- Python `d.get(k)`. -/
def dictGet (d : Dict) (k : List Nat) : Option TVal :=
  (d.find? (fun kv => kv.1 = k)).map (fun kv => kv.2)

/-- Errors raised by `encode_message`: `struct.error` from a `struct.pack`
whose argument is out of range for its format. -/
inductive EncErr where
  | structError
deriving DecidableEq, Repr

/-- `struct.pack` of one unsigned big-endian field of byte width `w`:
raises `struct.error` when the value does not fit. -/
def packBE (w : Nat) (n : Nat) : Option (List Nat) :=
  if n < 2 ^ (8 * w) then some (beBytes w n) else none

/-- `struct.pack('!q', v)`: signed 64-bit big-endian two's complement;
raises `struct.error` outside `[-2^63, 2^63)`. -/
def packI64 (v : Int) : Option (List Nat) :=
  if -2 ^ 63 ≤ v ∧ v < 2 ^ 63 then some (beBytes 8 (v % 2 ^ 64).toNat) else none

/-- One field of `encode_message`: 2-byte key length, key bytes, 1-byte
type code, then the value bytes (8-byte scalar, or 4-byte length plus
data). -/
def encodeField (key : List Nat) : TVal → Except EncErr (List Nat)
  | .int64 v =>
    match packBE 2 key.length, packI64 v with
    | some kl, some vb => .ok (kl ++ key ++ [1] ++ vb)
    | _, _ => .error .structError
  | .uint64 v =>
    match packBE 2 key.length, packBE 8 v with
    | some kl, some vb => .ok (kl ++ key ++ [2] ++ vb)
    | _, _ => .error .structError
  | .float64 bits =>
    match packBE 2 key.length with
    | some kl => .ok (kl ++ key ++ [3] ++ beBytes 8 bits)
    | none => .error .structError
  | .str s =>
    match packBE 2 key.length, packBE 4 s.length with
    | some kl, some sl => .ok (kl ++ key ++ [4] ++ sl ++ s)
    | _, _ => .error .structError
  | .binary b =>
    match packBE 2 key.length, packBE 4 b.length with
    | some kl, some bl => .ok (kl ++ key ++ [5] ++ bl ++ b)
    | _, _ => .error .structError

/-- The `parts` loop of `encode_message`: concatenation of the encoded
fields in dict iteration order, stopping at the first pack error. -/
def encodeFields : Dict → Except EncErr (List Nat)
  | [] => .ok []
  | (k, v) :: rest => do
    let fb ← encodeField k v
    let pb ← encodeFields rest
    .ok (fb ++ pb)

/-- `encode_message(data)` from `sbdp.py`: encode every field, then
prepend the 4-byte big-endian payload length (`struct.pack('!I', ·)`,
which raises when the payload length exceeds `2^32 - 1`). -/
def encode_message (data : Dict) : Except EncErr (List Nat) := do
  let payload ← encodeFields data
  match packBE 4 payload.length with
  | some header => .ok (header ++ payload)
  | none => .error .structError

/-- Exceptions escaping `decode_message`: the three explicit
`ValueError` raises, plus `struct.error` from an `unpack` on a wrong-size
slice and `UnicodeDecodeError` from `bytes.decode('utf-8')`. -/
inductive DecodeErr where
  | tooShort
  | incomplete
  | unknownTypeCode
  | structError
  | unicodeDecodeError
deriving DecidableEq, Repr

/-- One iteration of the `decode_message` while-loop: starting at
`offset`, read key length, key, type code and value exactly as the Python
code does (with clamping slices), returning the binding and the new
offset — which can overshoot `payload.length` when a declared
string/binary length exceeds the remaining bytes, since the data slice is
not length-checked. -/
def parseField (payload : List Nat) (offset : Nat) :
    Except DecodeErr (List Nat × TVal × Nat) :=
  match unpackBE 2 (pySlice payload offset (offset + 2)) with
  | none => .error .structError
  | some key_length =>
    let key := pySlice payload (offset + 2) (offset + 2 + key_length)
    if utf8Valid key then
      let off1 := offset + 2 + key_length
      match unpackBE 1 (pySlice payload off1 (off1 + 1)) with
      | none => .error .structError
      | some type_code =>
        let off2 := off1 + 1
        if type_code = 1 then
          match unpackBE 8 (pySlice payload off2 (off2 + 8)) with
          | none => .error .structError
          | some n => .ok (key, .int64 (toI64 n), off2 + 8)
        else if type_code = 2 then
          match unpackBE 8 (pySlice payload off2 (off2 + 8)) with
          | none => .error .structError
          | some n => .ok (key, .uint64 n, off2 + 8)
        else if type_code = 3 then
          match unpackBE 8 (pySlice payload off2 (off2 + 8)) with
          | none => .error .structError
          | some n => .ok (key, .float64 n, off2 + 8)
        else if type_code = 4 then
          match unpackBE 4 (pySlice payload off2 (off2 + 4)) with
          | none => .error .structError
          | some str_length =>
            let value := pySlice payload (off2 + 4) (off2 + 4 + str_length)
            if utf8Valid value then
              .ok (key, .str value, off2 + 4 + str_length)
            else .error .unicodeDecodeError
        else if type_code = 5 then
          match unpackBE 4 (pySlice payload off2 (off2 + 4)) with
          | none => .error .structError
          | some bin_length =>
            .ok (key, .binary (pySlice payload (off2 + 4) (off2 + 4 + bin_length)),
              off2 + 4 + bin_length)
        else .error .unknownTypeCode
    else .error .unicodeDecodeError

/-- A successful `parseField` strictly advances the offset. -/
theorem parseField_offset_lt {payload : List Nat} {offset : Nat}
    {k : List Nat} {v : TVal} {off' : Nat}
    (h : parseField payload offset = .ok (k, v, off')) : offset < off' := by
  unfold parseField at h
  dsimp only at h
  repeat first
  | exact Except.noConfusion h
  | omega
  | (obtain ⟨h1, h2, h3⟩ := Except.ok.inj h; omega)
  | split at h

/-- The `while offset < len(payload)` loop of `decode_message`,
accumulating bindings into `result` by Python dict assignment. -/
def decodeLoop (payload : List Nat) (offset : Nat) (result : Dict) :
    Except DecodeErr Dict :=
  if h : offset < payload.length then
    match hp : parseField payload offset with
    | .error e => .error e
    | .ok (k, v, off') => decodeLoop payload off' (dictInsert result k v)
  else .ok result
termination_by payload.length - offset
decreasing_by
  have := parseField_offset_lt hp
  omega

/-- `decode_message(message_bytes)` from `sbdp.py`: check the 4-byte
header is present, read the declared payload length, check the buffer
covers it, slice out the payload and run the field loop. -/
def decode_message (message_bytes : List Nat) : Except DecodeErr Dict :=
  if message_bytes.length < 4 then .error .tooShort
  else
    let total_length := beNat (pySlice message_bytes 0 4)
    if message_bytes.length < 4 + total_length then .error .incomplete
    else decodeLoop (pySlice message_bytes 4 (4 + total_length)) 0 []

/-- `sock.recv(k)` on the chunk-stream model: deliver the front chunk,
truncated to at most `k` bytes (the remainder stays buffered); an
exhausted stream behaves like a closed peer (empty read). -/
def recvChunk (s : List (List Nat)) (k : Nat) : List Nat × List (List Nat) :=
  match s with
  | [] => ([], [])
  | c :: rest => if c.length ≤ k then (c, rest) else (c.take k, c.drop k :: rest)

/-- The `while len(data) < n` loop of `recvall`, with the `recvChunk`
model of `sock.recv` inlined case by case (so that the function is
structurally recursive on the stream); `recvallLoop_step` below proves it
equal to the literal loop over `recvChunk`. -/
def recvallLoop : List (List Nat) → Nat → List Nat → List Nat × List (List Nat)
  | s, n, data =>
    if data.length < n then
      match s with
      | [] => (data, [])
      | c :: rest =>
        if c.length ≤ n - data.length then
          if c.isEmpty then (data, rest)
          else recvallLoop rest n (data ++ c)
        else
          (data ++ c.take (n - data.length), c.drop (n - data.length) :: rest)
    else (data, s)

/-- `recvallLoop` is the literal Python loop body: read a packet with
`sock.recv(n - len(data))`, return on an empty packet, otherwise append
and continue. -/
theorem recvallLoop_step (s : List (List Nat)) (n : Nat) (data : List Nat) :
    recvallLoop s n data =
      if data.length < n then
        match recvChunk s (n - data.length) with
        | (packet, s') =>
          if packet.isEmpty then (data, s')
          else recvallLoop s' n (data ++ packet)
      else (data, s) := by
  match s with
  | [] => rfl
  | c :: rest =>
    by_cases hd : data.length < n
    · simp only [recvallLoop, recvChunk, hd, if_true]
      by_cases hc : c.length ≤ n - data.length
      · simp [hc]
      · have htl : (c.take (n - data.length)).length = n - data.length := by
          simp [List.length_take]
          omega
        have hne : (c.take (n - data.length)).isEmpty = false := by
          rcases hEq : c.take (n - data.length) with _ | ⟨x, xs⟩
          · rw [hEq] at htl
            simp at htl
            omega
          · rfl
        simp only [if_neg hc, hne, Bool.false_eq_true, if_false]
        rw [recvallLoop]
        have hlen : (data ++ c.take (n - data.length)).length = n := by
          simp [htl]
          omega
        simp [hlen]
    · simp [recvallLoop, hd]

/-- `recvall(sock, n)` from `sbdp.py`: accumulate reads starting from the
empty byte string; returns the data plus the rest of the stream. -/
def recvall (s : List (List Nat)) (n : Nat) : List Nat × List (List Nat) :=
  recvallLoop s n []

/-- Exceptions escaping `recv_message`: the two explicit `RuntimeError`
raises, or an exception propagated from `decode_message`. -/
inductive RecvErr where
  | headerReadFailed
  | payloadReadFailed
  | decodeFailed (e : DecodeErr)
deriving DecidableEq, Repr

/-- `recv_message(sock)` from `sbdp.py`: read the 4-byte header with
`recvall`, fail if short; read the declared payload length; read the
payload with `recvall`, fail if short; decode the reassembled
`header + payload`.  Returns the decoded dict together with the unread
rest of the stream. -/
def recv_message (s : List (List Nat)) :
    Except RecvErr (Dict × List (List Nat)) :=
  let hr := recvall s 4
  if hr.1.length < 4 then .error .headerReadFailed
  else
    let total_length := beNat hr.1
    let pr := recvall hr.2 total_length
    if pr.1.length < total_length then .error .payloadReadFailed
    else
      match decode_message (hr.1 ++ pr.1) with
      | .error e => .error (.decodeFailed e)
      | .ok d => .ok (d, pr.2)

theorem length_beBytes (w : Nat) : ∀ n : Nat, (beBytes w n).length = w := by
  induction w with
  | zero => intro n; rfl
  | succ w ih => intro n; simp [beBytes, ih]

theorem beNat_append (xs : List Nat) (b : Nat) :
    beNat (xs ++ [b]) = beNat xs * 256 + b := by
  simp [beNat, List.foldl_append]

theorem beNat_beBytes (w : Nat) : ∀ n : Nat,
    beNat (beBytes w n) = n % 2 ^ (8 * w) := by
  induction w with
  | zero => intro n; simp [beBytes, beNat, Nat.mod_one]
  | succ w ih =>
    intro n
    rw [beBytes, beNat_append, ih]
    have h2 : 2 ^ (8 * (w + 1)) = 256 * 2 ^ (8 * w) := by ring
    rw [h2, Nat.mod_mul]
    ring

theorem beNat_beBytes_of_lt {w n : Nat} (h : n < 2 ^ (8 * w)) :
    beNat (beBytes w n) = n := by
  rw [beNat_beBytes]
  exact Nat.mod_eq_of_lt h

theorem unpackBE_beBytes {w n : Nat} (h : n < 2 ^ (8 * w)) :
    unpackBE w (beBytes w n) = some n := by
  simp [unpackBE, length_beBytes, beNat_beBytes_of_lt h]

/-- Slicing `n` bytes at `off` when the remaining buffer starts with a
block `a` of length `n` yields exactly `a`. -/
theorem pySlice_block {p : List Nat} {off n : Nat} {a b : List Nat}
    (hdrop : p.drop off = a ++ b) (hlen : a.length = n) :
    pySlice p off (off + n) = a := by
  have : off + n - off = n := by omega
  rw [pySlice, this, hdrop, ← hlen, List.take_left]

/-- Advancing the cursor past a block `a` of length `n` leaves the rest. -/
theorem drop_block {p : List Nat} {off n : Nat} {a b : List Nat}
    (hdrop : p.drop off = a ++ b) (hlen : a.length = n) :
    p.drop (off + n) = b := by
  rw [← List.drop_drop, hdrop, ← hlen, List.drop_left]

theorem beNat_single (b : Nat) : beNat [b] = b := by
  simp [beNat]

/-- Well-typedness of a Python value that the encoder cannot itself
check: a `float64` really is a 64-bit pattern, and a `string` value
really is text (its UTF-8 bytes are valid).  All other constraints on a
value are enforced by `struct.pack` during encoding. -/
def TValWF : TVal → Prop
  | .float64 bits => bits < 2 ^ 64
  | .str s => utf8Valid s = true
  | _ => True

instance : DecidablePred TValWF := by
  intro v
  cases v <;> simp [TValWF] <;> infer_instance

theorem packBE_ok {w n : Nat} {l : List Nat} (h : packBE w n = some l) :
    n < 2 ^ (8 * w) ∧ l = beBytes w n := by
  unfold packBE at h
  split at h
  · exact ⟨by assumption, (Option.some.inj h).symm⟩
  · exact Option.noConfusion h

theorem packI64_ok {v : Int} {l : List Nat} (h : packI64 v = some l) :
    -2 ^ 63 ≤ v ∧ v < 2 ^ 63 ∧ l = beBytes 8 (v % 2 ^ 64).toNat := by
  unfold packI64 at h
  split at h
  · exact ⟨by omega, by omega, (Option.some.inj h).symm⟩
  · exact Option.noConfusion h

/-- Two's-complement round trip for in-range signed 64-bit values. -/
theorem toI64_round {n : Int} (h1 : -2 ^ 63 ≤ n) (h2 : n < 2 ^ 63) :
    toI64 (n % 2 ^ 64).toNat = n := by
  unfold toI64
  split <;> omega

/-- Parsing one field of a well-typed encoded message: if the bytes at
the cursor start with `encodeField k v` then `parseField` recovers
exactly `(k, v)` and advances the cursor past the field. -/
theorem parseField_encoded {k : List Nat} {v : TVal} {fb : List Nat}
    (payload : List Nat) (offset : Nat) (rest : List Nat)
    (hfb : encodeField k v = .ok fb)
    (hdrop : payload.drop offset = fb ++ rest)
    (hkey : utf8Valid k = true) (hwf : TValWF v) :
    parseField payload offset = .ok (k, v, offset + fb.length) := by
  cases v with
  | int64 n =>
    simp only [encodeField] at hfb
    cases hkl : packBE 2 k.length with
    | none => rw [hkl] at hfb; exact Except.noConfusion hfb
    | some kl =>
      cases hvb : packI64 n with
      | none => rw [hkl, hvb] at hfb; exact Except.noConfusion hfb
      | some vb =>
        rw [hkl, hvb] at hfb
        injection hfb with hfb
        subst hfb
        obtain ⟨hk16, hkl'⟩ := packBE_ok hkl
        obtain ⟨hn1, hn2, hvb'⟩ := packI64_ok hvb
        subst hkl' hvb'
        have hd1 : payload.drop offset = beBytes 2 k.length ++
            (k ++ ([1] ++ (beBytes 8 (n % 2 ^ 64).toNat ++ rest))) := by
          rw [hdrop]; simp
        have e1 := pySlice_block hd1 (length_beBytes 2 _)
        have hd2 := drop_block hd1 (length_beBytes 2 _)
        have e2 := pySlice_block hd2 rfl
        have hd3 := drop_block hd2 rfl
        have e3 : pySlice payload (offset + 2 + k.length)
            (offset + 2 + k.length + 1) = [1] := pySlice_block hd3 rfl
        have hd4 : payload.drop (offset + 2 + k.length + 1) =
            beBytes 8 (n % 2 ^ 64).toNat ++ rest := drop_block hd3 rfl
        have e4 := pySlice_block hd4 (length_beBytes 8 _)
        have hm : (n % 2 ^ 64).toNat < 2 ^ (8 * 8) := by
          have : (2 : Nat) ^ (8 * 8) = 18446744073709551616 := by norm_num
          omega
        have u1 : unpackBE 2 (beBytes 2 k.length) = some k.length :=
          unpackBE_beBytes hk16
        have u4 : unpackBE 8 (beBytes 8 (n % 2 ^ 64).toNat) =
            some (n % 2 ^ 64).toNat := unpackBE_beBytes hm
        have u3 : unpackBE 1 [1] = some 1 := rfl
        simp [parseField, e1, u1, e2, hkey, e3, u3, e4, u4,
          toI64_round hn1 hn2, length_beBytes, -Nat.reducePow, -Int.reducePow]
        omega
  | uint64 n =>
    simp only [encodeField] at hfb
    cases hkl : packBE 2 k.length with
    | none => rw [hkl] at hfb; exact Except.noConfusion hfb
    | some kl =>
      cases hvb : packBE 8 n with
      | none => rw [hkl, hvb] at hfb; exact Except.noConfusion hfb
      | some vb =>
        rw [hkl, hvb] at hfb
        injection hfb with hfb
        subst hfb
        obtain ⟨hk16, hkl'⟩ := packBE_ok hkl
        obtain ⟨hn64, hvb'⟩ := packBE_ok hvb
        subst hkl' hvb'
        have hd1 : payload.drop offset = beBytes 2 k.length ++
            (k ++ ([2] ++ (beBytes 8 n ++ rest))) := by
          rw [hdrop]; simp
        have e1 := pySlice_block hd1 (length_beBytes 2 _)
        have hd2 := drop_block hd1 (length_beBytes 2 _)
        have e2 := pySlice_block hd2 rfl
        have hd3 := drop_block hd2 rfl
        have e3 : pySlice payload (offset + 2 + k.length)
            (offset + 2 + k.length + 1) = [2] := pySlice_block hd3 rfl
        have hd4 : payload.drop (offset + 2 + k.length + 1) =
            beBytes 8 n ++ rest := drop_block hd3 rfl
        have e4 := pySlice_block hd4 (length_beBytes 8 _)
        have u1 : unpackBE 2 (beBytes 2 k.length) = some k.length :=
          unpackBE_beBytes hk16
        have u4 : unpackBE 8 (beBytes 8 n) = some n := unpackBE_beBytes hn64
        have u3 : unpackBE 1 [2] = some 2 := rfl
        simp [parseField, e1, u1, e2, hkey, e3, u3, e4, u4,
          length_beBytes, -Nat.reducePow, -Int.reducePow]
        omega
  | float64 b =>
    simp only [encodeField] at hfb
    cases hkl : packBE 2 k.length with
    | none => rw [hkl] at hfb; exact Except.noConfusion hfb
    | some kl =>
      rw [hkl] at hfb
      injection hfb with hfb
      subst hfb
      obtain ⟨hk16, hkl'⟩ := packBE_ok hkl
      subst hkl'
      have hb64 : b < 2 ^ (8 * 8) := by
        have hb : b < 2 ^ 64 := hwf
        have : (2 : Nat) ^ (8 * 8) = 2 ^ 64 := by norm_num
        omega
      have hd1 : payload.drop offset = beBytes 2 k.length ++
          (k ++ ([3] ++ (beBytes 8 b ++ rest))) := by
        rw [hdrop]; simp
      have e1 := pySlice_block hd1 (length_beBytes 2 _)
      have hd2 := drop_block hd1 (length_beBytes 2 _)
      have e2 := pySlice_block hd2 rfl
      have hd3 := drop_block hd2 rfl
      have e3 : pySlice payload (offset + 2 + k.length)
          (offset + 2 + k.length + 1) = [3] := pySlice_block hd3 rfl
      have hd4 : payload.drop (offset + 2 + k.length + 1) =
          beBytes 8 b ++ rest := drop_block hd3 rfl
      have e4 := pySlice_block hd4 (length_beBytes 8 _)
      have u1 : unpackBE 2 (beBytes 2 k.length) = some k.length :=
        unpackBE_beBytes hk16
      have u4 : unpackBE 8 (beBytes 8 b) = some b := unpackBE_beBytes hb64
      have u3 : unpackBE 1 [3] = some 3 := rfl
      simp [parseField, e1, u1, e2, hkey, e3, u3, e4, u4,
        length_beBytes, -Nat.reducePow, -Int.reducePow]
      omega
  | str s =>
    simp only [encodeField] at hfb
    cases hkl : packBE 2 k.length with
    | none => rw [hkl] at hfb; exact Except.noConfusion hfb
    | some kl =>
      cases hsl : packBE 4 s.length with
      | none => rw [hkl, hsl] at hfb; exact Except.noConfusion hfb
      | some sl =>
        rw [hkl, hsl] at hfb
        injection hfb with hfb
        subst hfb
        obtain ⟨hk16, hkl'⟩ := packBE_ok hkl
        obtain ⟨hs32, hsl'⟩ := packBE_ok hsl
        subst hkl' hsl'
        have hs : utf8Valid s = true := hwf
        have hd1 : payload.drop offset = beBytes 2 k.length ++
            (k ++ ([4] ++ (beBytes 4 s.length ++ (s ++ rest)))) := by
          rw [hdrop]; simp
        have e1 := pySlice_block hd1 (length_beBytes 2 _)
        have hd2 := drop_block hd1 (length_beBytes 2 _)
        have e2 := pySlice_block hd2 rfl
        have hd3 := drop_block hd2 rfl
        have e3 : pySlice payload (offset + 2 + k.length)
            (offset + 2 + k.length + 1) = [4] := pySlice_block hd3 rfl
        have hd4 : payload.drop (offset + 2 + k.length + 1) =
            beBytes 4 s.length ++ (s ++ rest) := drop_block hd3 rfl
        have e4 := pySlice_block hd4 (length_beBytes 4 _)
        have hd5 : payload.drop (offset + 2 + k.length + 1 + 4) =
            s ++ rest := drop_block hd4 (length_beBytes 4 _)
        have e5 := pySlice_block hd5 rfl
        have u1 : unpackBE 2 (beBytes 2 k.length) = some k.length :=
          unpackBE_beBytes hk16
        have u4 : unpackBE 4 (beBytes 4 s.length) = some s.length :=
          unpackBE_beBytes hs32
        have u3 : unpackBE 1 [4] = some 4 := rfl
        simp [parseField, e1, u1, e2, hkey, e3, u3, e4, u4, e5, hs,
          length_beBytes, -Nat.reducePow, -Int.reducePow]
        omega
  | binary b =>
    simp only [encodeField] at hfb
    cases hkl : packBE 2 k.length with
    | none => rw [hkl] at hfb; exact Except.noConfusion hfb
    | some kl =>
      cases hbl : packBE 4 b.length with
      | none => rw [hkl, hbl] at hfb; exact Except.noConfusion hfb
      | some bl =>
        rw [hkl, hbl] at hfb
        injection hfb with hfb
        subst hfb
        obtain ⟨hk16, hkl'⟩ := packBE_ok hkl
        obtain ⟨hb32, hbl'⟩ := packBE_ok hbl
        subst hkl' hbl'
        have hd1 : payload.drop offset = beBytes 2 k.length ++
            (k ++ ([5] ++ (beBytes 4 b.length ++ (b ++ rest)))) := by
          rw [hdrop]; simp
        have e1 := pySlice_block hd1 (length_beBytes 2 _)
        have hd2 := drop_block hd1 (length_beBytes 2 _)
        have e2 := pySlice_block hd2 rfl
        have hd3 := drop_block hd2 rfl
        have e3 : pySlice payload (offset + 2 + k.length)
            (offset + 2 + k.length + 1) = [5] := pySlice_block hd3 rfl
        have hd4 : payload.drop (offset + 2 + k.length + 1) =
            beBytes 4 b.length ++ (b ++ rest) := drop_block hd3 rfl
        have e4 := pySlice_block hd4 (length_beBytes 4 _)
        have hd5 : payload.drop (offset + 2 + k.length + 1 + 4) =
            b ++ rest := drop_block hd4 (length_beBytes 4 _)
        have e5 := pySlice_block hd5 rfl
        have u1 : unpackBE 2 (beBytes 2 k.length) = some k.length :=
          unpackBE_beBytes hk16
        have u4 : unpackBE 4 (beBytes 4 b.length) = some b.length :=
          unpackBE_beBytes hb32
        have u3 : unpackBE 1 [5] = some 5 := rfl
        simp [parseField, e1, u1, e2, hkey, e3, u3, e4, u4, e5,
          length_beBytes, -Nat.reducePow, -Int.reducePow]
        omega

theorem decodeLoop_unfold (payload : List Nat) (offset : Nat) (result : Dict) :
    decodeLoop payload offset result =
      if offset < payload.length then
        match parseField payload offset with
        | .error e => .error e
        | .ok (k, v, off') => decodeLoop payload off' (dictInsert result k v)
      else .ok result := by
  rw [decodeLoop]
  by_cases h : offset < payload.length
  · simp only [dif_pos h, if_pos h]
    cases hpf : parseField payload offset with
    | error e => rfl
    | ok t => obtain ⟨k, v, off'⟩ := t; rfl
  · simp only [dif_neg h, if_neg h]

theorem encodeField_ok_pos {k : List Nat} {v : TVal} {fb : List Nat}
    (h : encodeField k v = .ok fb) : 0 < fb.length := by
  cases v <;> simp only [encodeField] at h <;> (repeat' split at h) <;>
    first
    | exact Except.noConfusion h
    | (injection h with h; subst h; simp [length_beBytes])

/-- Per-field well-typedness of a whole message's bindings. -/
def fieldsWF (m : Dict) : Prop :=
  ∀ kv ∈ m, utf8Valid kv.1 = true ∧ TValWF kv.2

/-- Python's `result[key] = value` loop over a field list, starting from
dict `r`. -/
def insertAll (r : Dict) (fields : Dict) : Dict :=
  fields.foldl (fun d kv => dictInsert d kv.1 kv.2) r

/-- Running the decode loop over the exact encoding of a well-typed field
list inserts precisely those bindings, in order. -/
theorem decodeLoop_encoded :
    ∀ (fields : Dict) (payload : List Nat) (offset : Nat) (r : Dict)
      (bs : List Nat),
    encodeFields fields = .ok bs →
    payload.drop offset = bs →
    fieldsWF fields →
    decodeLoop payload offset r = .ok (insertAll r fields) := by
  intro fields
  induction fields with
  | nil =>
    intro payload offset r bs henc hdrop _hwf
    simp only [encodeFields] at henc
    injection henc with henc
    subst henc
    have hlen := List.drop_eq_nil_iff.mp hdrop
    rw [decodeLoop_unfold, if_neg (by omega)]
    rfl
  | cons kv rest ih =>
    intro payload offset r bs henc hdrop hwf
    obtain ⟨k, v⟩ := kv
    simp only [encodeFields] at henc
    cases hfb : encodeField k v with
    | error e => rw [hfb] at henc; exact Except.noConfusion henc
    | ok fb =>
      cases hpb : encodeFields rest with
      | error e => rw [hfb, hpb] at henc; exact Except.noConfusion henc
      | ok pb =>
        rw [hfb, hpb] at henc
        injection henc with henc
        subst henc
        have hwf1 := hwf (k, v) (by simp)
        have hwfr : fieldsWF rest := fun kv hm => hwf kv (by simp [hm])
        have hpf := parseField_encoded payload offset pb hfb hdrop
          hwf1.1 hwf1.2
        have hoff : offset < payload.length := by
          have hpos := encodeField_ok_pos hfb
          have hld : (payload.drop offset).length = (fb ++ pb).length := by
            rw [hdrop]
          simp [List.length_drop] at hld
          omega
        rw [decodeLoop_unfold, if_pos hoff, hpf]
        have hdrop2 : payload.drop (offset + fb.length) = pb :=
          drop_block hdrop rfl
        show decodeLoop payload (offset + fb.length) (dictInsert r k v) = _
        rw [ih payload (offset + fb.length) (dictInsert r k v) pb hpb
          hdrop2 hwfr]
        rfl

/-- Wire size of the value part of a field: 8-byte scalars, or a 4-byte
length prefix plus the data. -/
def valLen : TVal → Nat
  | .int64 _ => 8
  | .uint64 _ => 8
  | .float64 _ => 8
  | .str s => 4 + s.length
  | .binary b => 4 + b.length

/-- Total payload size of a message: for each field, 2 bytes of key
length, the key, 1 byte of type code and the value bytes. -/
def msgLen (m : Dict) : Nat :=
  (m.map (fun kv => 3 + kv.1.length + valLen kv.2)).sum

theorem encodeField_ok_length {k : List Nat} {v : TVal} {fb : List Nat}
    (h : encodeField k v = .ok fb) :
    fb.length = 3 + k.length + valLen v := by
  cases v with
  | int64 n =>
    simp only [encodeField] at h
    cases hkl : packBE 2 k.length with
    | none => rw [hkl] at h; exact Except.noConfusion h
    | some kl =>
      cases hvb : packI64 n with
      | none => rw [hkl, hvb] at h; exact Except.noConfusion h
      | some vb =>
        rw [hkl, hvb] at h
        injection h with h
        subst h
        rw [(packBE_ok hkl).2, (packI64_ok hvb).2.2]
        simp [length_beBytes, valLen]
        try omega
  | uint64 n =>
    simp only [encodeField] at h
    cases hkl : packBE 2 k.length with
    | none => rw [hkl] at h; exact Except.noConfusion h
    | some kl =>
      cases hvb : packBE 8 n with
      | none => rw [hkl, hvb] at h; exact Except.noConfusion h
      | some vb =>
        rw [hkl, hvb] at h
        injection h with h
        subst h
        rw [(packBE_ok hkl).2, (packBE_ok hvb).2]
        simp [length_beBytes, valLen]
        try omega
  | float64 b =>
    simp only [encodeField] at h
    cases hkl : packBE 2 k.length with
    | none => rw [hkl] at h; exact Except.noConfusion h
    | some kl =>
      rw [hkl] at h
      injection h with h
      subst h
      rw [(packBE_ok hkl).2]
      simp [length_beBytes, valLen]
      try omega
  | str s =>
    simp only [encodeField] at h
    cases hkl : packBE 2 k.length with
    | none => rw [hkl] at h; exact Except.noConfusion h
    | some kl =>
      cases hsl : packBE 4 s.length with
      | none => rw [hkl, hsl] at h; exact Except.noConfusion h
      | some sl =>
        rw [hkl, hsl] at h
        injection h with h
        subst h
        rw [(packBE_ok hkl).2, (packBE_ok hsl).2]
        simp [length_beBytes, valLen]
        try omega
  | binary b =>
    simp only [encodeField] at h
    cases hkl : packBE 2 k.length with
    | none => rw [hkl] at h; exact Except.noConfusion h
    | some kl =>
      cases hbl : packBE 4 b.length with
      | none => rw [hkl, hbl] at h; exact Except.noConfusion h
      | some bl =>
        rw [hkl, hbl] at h
        injection h with h
        subst h
        rw [(packBE_ok hkl).2, (packBE_ok hbl).2]
        simp [length_beBytes, valLen]
        try omega

theorem encodeFields_ok_length :
    ∀ {m : Dict} {bs : List Nat}, encodeFields m = .ok bs →
    bs.length = msgLen m := by
  intro m
  induction m with
  | nil =>
    intro bs h
    injection h with h
    subst h
    rfl
  | cons kv rest ih =>
    intro bs h
    obtain ⟨k, v⟩ := kv
    simp only [encodeFields] at h
    cases hfb : encodeField k v with
    | error e => rw [hfb] at h; exact Except.noConfusion h
    | ok fb =>
      cases hpb : encodeFields rest with
      | error e => rw [hfb, hpb] at h; exact Except.noConfusion h
      | ok pb =>
        rw [hfb, hpb] at h
        injection h with h
        subst h
        simp [msgLen, encodeField_ok_length hfb, ih hpb]
        try omega

/-- The value constraints the claims call a "valid message" binding:
signed/unsigned 64-bit ranges for the integer kinds, a 64-bit pattern for
floats, valid UTF-8 and the 32-bit length bound for strings, and the
32-bit length bound for binary data. -/
def valOK : TVal → Prop
  | .int64 v => -2 ^ 63 ≤ v ∧ v < 2 ^ 63
  | .uint64 v => v < 2 ^ 64
  | .float64 bits => bits < 2 ^ 64
  | .str s => utf8Valid s = true ∧ s.length < 2 ^ 32
  | .binary b => b.length < 2 ^ 32

instance : DecidablePred valOK := by
  intro v
  cases v <;> simp [valOK] <;> infer_instance

theorem valOK_TValWF {v : TVal} (h : valOK v) : TValWF v := by
  cases v <;> simp [TValWF]
  · exact h
  · exact h.1

theorem encodeField_ok_of_valid {k : List Nat} {v : TVal}
    (hk : k.length < 2 ^ 16) (hv : valOK v) :
    ∃ fb, encodeField k v = .ok fb := by
  have hk' : k.length < 2 ^ (8 * 2) := by
    have e : (2 : Nat) ^ (8 * 2) = 2 ^ 16 := by norm_num
    omega
  cases v with
  | int64 n =>
    obtain ⟨h1, h2⟩ := hv
    simp only [encodeField]
    unfold packBE packI64
    rw [if_pos hk', if_pos (show _ ∧ _ from ⟨h1, h2⟩)]
    exact ⟨_, rfl⟩
  | uint64 n =>
    have h' : n < 2 ^ 64 := hv
    have hn : n < 2 ^ (8 * 8) := by
      have e : (2 : Nat) ^ (8 * 8) = 2 ^ 64 := by norm_num
      omega
    simp only [encodeField]
    unfold packBE
    rw [if_pos hk', if_pos hn]
    exact ⟨_, rfl⟩
  | float64 b =>
    simp only [encodeField]
    unfold packBE
    rw [if_pos hk']
    exact ⟨_, rfl⟩
  | str s =>
    have h' : s.length < 2 ^ 32 := hv.2
    have hs : s.length < 2 ^ (8 * 4) := by
      have e : (2 : Nat) ^ (8 * 4) = 2 ^ 32 := by norm_num
      omega
    simp only [encodeField]
    unfold packBE
    rw [if_pos hk', if_pos hs]
    exact ⟨_, rfl⟩
  | binary b =>
    have h' : b.length < 2 ^ 32 := hv
    have hb : b.length < 2 ^ (8 * 4) := by
      have e : (2 : Nat) ^ (8 * 4) = 2 ^ 32 := by norm_num
      omega
    simp only [encodeField]
    unfold packBE
    rw [if_pos hk', if_pos hb]
    exact ⟨_, rfl⟩

theorem encodeFields_ok_of_valid :
    ∀ {m : Dict},
    (∀ kv ∈ m, kv.1.length < 2 ^ 16 ∧ valOK kv.2) →
    ∃ bs, encodeFields m = .ok bs := by
  intro m
  induction m with
  | nil => intro _; exact ⟨[], rfl⟩
  | cons kv rest ih =>
    intro hval
    obtain ⟨k, v⟩ := kv
    obtain ⟨hk, hv⟩ := hval (k, v) (by simp)
    obtain ⟨fb, hfb⟩ := encodeField_ok_of_valid hk hv
    obtain ⟨pb, hpb⟩ := ih (fun kv hm => hval kv (by simp [hm]))
    refine ⟨fb ++ pb, ?_⟩
    simp only [encodeFields, hfb, hpb]
    rfl

/-- A successful `encode_message` output is a 4-byte big-endian length
header followed by the encoded fields, whose length fits in 32 bits. -/
theorem encode_message_ok_shape {m : Dict} {frame : List Nat}
    (h : encode_message m = .ok frame) :
    ∃ payload, encodeFields m = .ok payload ∧ payload.length < 2 ^ 32 ∧
      frame = beBytes 4 payload.length ++ payload := by
  unfold encode_message at h
  cases hpl : encodeFields m with
  | error e => rw [hpl] at h; exact Except.noConfusion h
  | ok payload =>
    rw [hpl] at h
    have h' : (match packBE 4 payload.length with
        | some header => Except.ok (header ++ payload)
        | none => Except.error EncErr.structError) = Except.ok frame := h
    cases hpk : packBE 4 payload.length with
    | none =>
      rw [hpk] at h'
      exact Except.noConfusion h'
    | some header =>
      rw [hpk] at h'
      injection h' with h
      obtain ⟨hlt, hh⟩ := packBE_ok hpk
      refine ⟨payload, rfl, ?_, ?_⟩
      · have e : (2 : Nat) ^ (8 * 4) = 2 ^ 32 := by norm_num
        omega
      · rw [← h, hh]

/-- Conversely, when the fields encode and the payload fits in 32 bits,
`encode_message` succeeds with that frame. -/
theorem encode_message_ok_of {m : Dict} {payload : List Nat}
    (hpl : encodeFields m = .ok payload) (hlt : payload.length < 2 ^ 32) :
    encode_message m = .ok (beBytes 4 payload.length ++ payload) := by
  have hlt' : payload.length < 2 ^ (8 * 4) := by
    have e : (2 : Nat) ^ (8 * 4) = 2 ^ 32 := by norm_num
    omega
  unfold encode_message
  rw [hpl]
  show (match packBE 4 payload.length with
    | some header => Except.ok (header ++ payload)
    | none => Except.error EncErr.structError) = _
  unfold packBE
  rw [if_pos hlt']

/-- Decoding a frame produced by `encode_message` on a well-typed message
runs the field loop over exactly the encoded payload and yields the
insertions of all fields in order. -/
theorem decode_message_encoded {m : Dict} {frame : List Nat}
    (henc : encode_message m = .ok frame) (hwf : fieldsWF m) :
    decode_message frame = .ok (insertAll [] m) := by
  obtain ⟨payload, hpl, hlt, hframe⟩ := encode_message_ok_shape henc
  subst hframe
  have hd0 : (beBytes 4 payload.length ++ payload).drop 0 =
      beBytes 4 payload.length ++ payload := List.drop_zero _
  have hlen : (beBytes 4 payload.length ++ payload).length =
      4 + payload.length := by simp [length_beBytes]
  have hlt' : payload.length < 2 ^ (8 * 4) := by
    have e : (2 : Nat) ^ (8 * 4) = 2 ^ 32 := by norm_num
    omega
  have e0 : pySlice (beBytes 4 payload.length ++ payload) 0 4 =
      beBytes 4 payload.length := by
    have := pySlice_block hd0 (length_beBytes 4 payload.length)
    simpa using this
  have hd4 : (beBytes 4 payload.length ++ payload).drop 4 = payload := by
    have := drop_block hd0 (length_beBytes 4 payload.length)
    simpa using this
  have e4 : pySlice (beBytes 4 payload.length ++ payload) 4
      (4 + payload.length) = payload := by
    have hd4' : (beBytes 4 payload.length ++ payload).drop 4 =
        payload ++ [] := by simp [hd4]
    have := pySlice_block hd4' rfl
    simpa using this
  unfold decode_message
  rw [if_neg (by omega), e0, beNat_beBytes_of_lt hlt', if_neg (by omega), e4]
  exact decodeLoop_encoded m payload 0 [] payload hpl (List.drop_zero _) hwf

/-- Python dict assignment with a fresh key appends the binding. -/
theorem dictInsert_of_not_mem {d : Dict} {k : List Nat} {v : TVal}
    (h : ∀ kv ∈ d, kv.1 ≠ k) : dictInsert d k v = d ++ [(k, v)] := by
  induction d with
  | nil => rfl
  | cons kv0 rest ih =>
    obtain ⟨k0, v0⟩ := kv0
    have hk0 : k0 ≠ k := h (k0, v0) (by simp)
    simp only [dictInsert, if_neg hk0, List.cons_append]
    rw [ih (fun kv hm => h kv (by simp [hm]))]

/-- Inserting a run of bindings with fresh, pairwise-distinct keys appends
them in order. -/
theorem insertAll_of_disjoint :
    ∀ (m : Dict) (d : Dict),
    (m.map Prod.fst).Nodup →
    (∀ kv ∈ m, ∀ kv' ∈ d, kv'.1 ≠ kv.1) →
    insertAll d m = d ++ m := by
  intro m
  induction m with
  | nil => intro d _ _; simp [insertAll]
  | cons kv rest ih =>
    intro d hnd hdisj
    obtain ⟨k, v⟩ := kv
    have h1 : dictInsert d k v = d ++ [(k, v)] :=
      dictInsert_of_not_mem (fun kv' hm => hdisj (k, v) (by simp) kv' hm)
    have hnd' : (rest.map Prod.fst).Nodup := by
      simp only [List.map_cons, List.nodup_cons] at hnd
      exact hnd.2
    have hk : k ∉ rest.map Prod.fst := by
      simp only [List.map_cons, List.nodup_cons] at hnd
      exact hnd.1
    have hdisj' : ∀ kv ∈ rest, ∀ kv' ∈ d ++ [(k, v)], kv'.1 ≠ kv.1 := by
      intro kv hm kv' hm'
      rcases List.mem_append.mp hm' with hd | hs
      · exact hdisj kv (by simp [hm]) kv' hd
      · have : kv' = (k, v) := by simpa using hs
        subst this
        intro hEq
        exact hk (by
          simp only [List.mem_map]
          exact ⟨kv, hm, hEq.symm⟩)
    show insertAll (dictInsert d k v) rest = _
    rw [h1, ih (d ++ [(k, v)]) hnd' hdisj']
    simp

/-- Decoding inserts a distinct-keyed message back unchanged. -/
theorem insertAll_self {m : Dict} (hnd : (m.map Prod.fst).Nodup) :
    insertAll [] m = m := by
  have := insertAll_of_disjoint m [] hnd (by simp)
  simpa using this

/-- Round trip: a distinct-keyed message of in-range, well-typed values
whose payload fits the 32-bit header encodes successfully and decodes
back to itself. -/
theorem roundTrip_aux {m : Dict} (hnd : (m.map Prod.fst).Nodup)
    (hval : ∀ kv ∈ m,
      utf8Valid kv.1 = true ∧ kv.1.length < 2 ^ 16 ∧ valOK kv.2)
    (htot : msgLen m < 2 ^ 32) :
    ∃ frame, encode_message m = .ok frame ∧
      decode_message frame = .ok m := by
  obtain ⟨payload, hpl⟩ := encodeFields_ok_of_valid
    (fun kv hm => ⟨(hval kv hm).2.1, (hval kv hm).2.2⟩)
  have hlen : payload.length < 2 ^ 32 := by
    rw [encodeFields_ok_length hpl]
    exact htot
  have henc := encode_message_ok_of hpl hlen
  have hwf : fieldsWF m :=
    fun kv hm => ⟨(hval kv hm).1, valOK_TValWF (hval kv hm).2.2⟩
  have hdec := decode_message_encoded henc hwf
  rw [insertAll_self hnd] at hdec
  exact ⟨_, henc, hdec⟩

/-- Running the decode loop across an encoded well-typed field block
advances the cursor to whatever follows the block. -/
theorem decodeLoop_encoded_then :
    ∀ (fields : Dict) (payload : List Nat) (offset : Nat) (r : Dict)
      (bs junk : List Nat),
    encodeFields fields = .ok bs →
    payload.drop offset = bs ++ junk →
    fieldsWF fields →
    decodeLoop payload offset r =
      decodeLoop payload (offset + bs.length) (insertAll r fields) := by
  intro fields
  induction fields with
  | nil =>
    intro payload offset r bs junk henc hdrop _hwf
    simp only [encodeFields] at henc
    injection henc with henc
    subst henc
    simp [insertAll]
  | cons kv rest ih =>
    intro payload offset r bs junk henc hdrop hwf
    obtain ⟨k, v⟩ := kv
    simp only [encodeFields] at henc
    cases hfb : encodeField k v with
    | error e => rw [hfb] at henc; exact Except.noConfusion henc
    | ok fb =>
      cases hpb : encodeFields rest with
      | error e => rw [hfb, hpb] at henc; exact Except.noConfusion henc
      | ok pb =>
        rw [hfb, hpb] at henc
        injection henc with henc
        subst henc
        have hwf1 := hwf (k, v) (by simp)
        have hwfr : fieldsWF rest := fun kv hm => hwf kv (by simp [hm])
        have hdrop' : payload.drop offset = fb ++ (pb ++ junk) := by
          rw [hdrop]; simp
        have hpf := parseField_encoded payload offset (pb ++ junk) hfb
          hdrop' hwf1.1 hwf1.2
        have hoff : offset < payload.length := by
          have hpos := encodeField_ok_pos hfb
          have hld : (payload.drop offset).length =
              (fb ++ (pb ++ junk)).length := by rw [hdrop']
          simp [List.length_drop] at hld
          omega
        rw [decodeLoop_unfold, if_pos hoff, hpf]
        have hdrop2 : payload.drop (offset + fb.length) = pb ++ junk :=
          drop_block hdrop' rfl
        show decodeLoop payload (offset + fb.length) (dictInsert r k v) = _
        rw [ih payload (offset + fb.length) (dictInsert r k v) pb junk
          hpb hdrop2 hwfr]
        have : offset + (fb ++ pb).length = offset + fb.length + pb.length := by
          simp
          omega
        rw [this]
        rfl

/-- When the bytes at the cursor carry a syntactically complete key
followed by a type code outside 1–5, `parseField` raises the
unknown-type-code `ValueError`. -/
theorem parseField_unknownType {payload : List Nat} {offset : Nat}
    {key : List Nat} {tc : Nat} {rest : List Nat}
    (hdrop : payload.drop offset =
      beBytes 2 key.length ++ (key ++ ([tc] ++ rest)))
    (hklen : key.length < 2 ^ 16) (hkey : utf8Valid key = true)
    (htc : tc ≠ 1 ∧ tc ≠ 2 ∧ tc ≠ 3 ∧ tc ≠ 4 ∧ tc ≠ 5) :
    parseField payload offset = .error .unknownTypeCode := by
  have hklen' : key.length < 2 ^ (8 * 2) := by
    have e : (2 : Nat) ^ (8 * 2) = 2 ^ 16 := by norm_num
    omega
  have e1 := pySlice_block hdrop (length_beBytes 2 _)
  have hd2 := drop_block hdrop (length_beBytes 2 _)
  have e2 := pySlice_block hd2 rfl
  have hd3 := drop_block hd2 rfl
  have e3 : pySlice payload (offset + 2 + key.length)
      (offset + 2 + key.length + 1) = [tc] := pySlice_block hd3 rfl
  have u1 : unpackBE 2 (beBytes 2 key.length) = some key.length :=
    unpackBE_beBytes hklen'
  have u3 : unpackBE 1 [tc] = some tc := by
    simp [unpackBE, beNat_single]
  obtain ⟨h1, h2, h3, h4, h5⟩ := htc
  simp [parseField, e1, u1, e2, hkey, e3, u3, h1, h2, h3, h4, h5]

/-- Bytes appended after a frame's declared extent do not change what
`decode_message` does: the parse is confined to the slice of
`total_length` bytes after the header. -/
theorem decode_message_append {m : Dict} {frame : List Nat}
    (henc : encode_message m = .ok frame) (s : List Nat) :
    decode_message (frame ++ s) = decode_message frame := by
  obtain ⟨payload, _hpl, hlt, hframe⟩ := encode_message_ok_shape henc
  subst hframe
  have hd0 : (beBytes 4 payload.length ++ payload ++ s).drop 0 =
      beBytes 4 payload.length ++ (payload ++ s) := by simp
  have hd0' : (beBytes 4 payload.length ++ payload).drop 0 =
      beBytes 4 payload.length ++ payload := List.drop_zero _
  have hlt' : payload.length < 2 ^ (8 * 4) := by
    have e : (2 : Nat) ^ (8 * 4) = 2 ^ 32 := by norm_num
    omega
  have e0 : pySlice (beBytes 4 payload.length ++ payload ++ s) 0 4 =
      beBytes 4 payload.length := by
    have := pySlice_block hd0 (length_beBytes 4 payload.length)
    simpa using this
  have e0' : pySlice (beBytes 4 payload.length ++ payload) 0 4 =
      beBytes 4 payload.length := by
    have := pySlice_block hd0' (length_beBytes 4 payload.length)
    simpa using this
  have hd4 : (beBytes 4 payload.length ++ payload ++ s).drop 4 =
      payload ++ s := by
    have := drop_block hd0 (length_beBytes 4 payload.length)
    simpa using this
  have hd4' : (beBytes 4 payload.length ++ payload).drop 4 = payload := by
    have := drop_block hd0' (length_beBytes 4 payload.length)
    simpa using this
  have e4 : pySlice (beBytes 4 payload.length ++ payload ++ s) 4
      (4 + payload.length) = payload := by
    have hdx : (beBytes 4 payload.length ++ payload ++ s).drop 4 =
        payload ++ s := hd4
    have := pySlice_block hdx rfl
    simpa using this
  have e4' : pySlice (beBytes 4 payload.length ++ payload) 4
      (4 + payload.length) = payload := by
    have hdx : (beBytes 4 payload.length ++ payload).drop 4 =
        payload ++ [] := by simp [hd4']
    have := pySlice_block hdx rfl
    simpa using this
  have hlen : (beBytes 4 payload.length ++ payload).length =
      4 + payload.length := by simp [length_beBytes]
  have hlen' : (beBytes 4 payload.length ++ payload ++ s).length =
      4 + payload.length + s.length := by simp [length_beBytes]; omega
  unfold decode_message
  rw [if_neg (by omega), e0, beNat_beBytes_of_lt hlt', if_neg (by omega), e4,
    if_neg (by omega), e0', beNat_beBytes_of_lt hlt', if_neg (by omega), e4']

/-- Decoding a strict prefix of an encoded frame fails: with the header
cut short it raises the too-short `ValueError`, and otherwise the
declared length exceeds the supplied buffer and it raises the
incomplete-message `ValueError`. -/
theorem decode_message_truncated {m : Dict} {frame : List Nat}
    (henc : encode_message m = .ok frame) {k : Nat} (hk : k < frame.length) :
    decode_message (frame.take k) =
      .error (if k < 4 then .tooShort else .incomplete) := by
  obtain ⟨payload, _hpl, hlt, hframe⟩ := encode_message_ok_shape henc
  subst hframe
  have hflen : (beBytes 4 payload.length ++ payload).length =
      4 + payload.length := by simp [length_beBytes]
  have hplen : ((beBytes 4 payload.length ++ payload).take k).length = k := by
    simp [List.length_take, length_beBytes]
    omega
  by_cases h4 : k < 4
  · rw [if_pos h4]
    unfold decode_message
    rw [if_pos (by omega)]
  · rw [if_neg h4]
    have hlt' : payload.length < 2 ^ (8 * 4) := by
      have e : (2 : Nat) ^ (8 * 4) = 2 ^ 32 := by norm_num
      omega
    have h44 : (beBytes 4 payload.length).length = 4 := length_beBytes 4 _
    have e0 : pySlice ((beBytes 4 payload.length ++ payload).take k) 0 4 =
        beBytes 4 payload.length := by
      unfold pySlice
      rw [List.drop_zero, Nat.sub_zero, List.take_take,
        min_eq_left (by omega), List.take_left' h44]
    unfold decode_message
    rw [if_neg (by omega), e0, beNat_beBytes_of_lt hlt', if_pos (by omega)]

/-- The bytes a stream can still deliver before the peer's close: the
concatenation of the chunks ahead of the first empty chunk. -/
def availBytes : List (List Nat) → List Nat
  | [] => []
  | c :: rest => if c.isEmpty then [] else c ++ availBytes rest

theorem recvallLoop_spec (n : Nat) :
    ∀ (s : List (List Nat)) (data : List Nat),
    (recvallLoop s n data).1 =
      data ++ (availBytes s).take (n - data.length) := by
  intro s
  induction s with
  | nil =>
    intro data
    rw [recvallLoop]
    by_cases h : data.length < n <;> simp [h, availBytes]
  | cons c rest ih =>
    intro data
    by_cases hd : data.length < n
    · by_cases hc : c.length ≤ n - data.length
      · by_cases he : c.isEmpty = true
        · have hc0 : c = [] := List.isEmpty_iff.mp he
          subst hc0
          rw [recvallLoop]
          simp [hd, availBytes]
        · rw [recvallLoop]
          simp only [if_pos hd, if_pos hc, he, Bool.false_eq_true, if_false]
          rw [ih (data ++ c)]
          have hA : availBytes (c :: rest) = c ++ availBytes rest := by
            simp [availBytes, he]
          rw [hA, List.take_append_eq_append_take,
            List.take_of_length_le hc]
          simp [Nat.sub_sub]
      · rw [recvallLoop]
        simp only [if_pos hd, if_neg hc]
        have hne : c.isEmpty = false := by
          rcases c with _ | ⟨x, xs⟩
          · exact absurd (by simp : [].length ≤ n - data.length) hc
          · rfl
        have hA : availBytes (c :: rest) = c ++ availBytes rest := by
          simp [availBytes, hne]
        rw [hA, List.take_append_of_le_length (by omega)]
    · rw [recvallLoop]
      have h0 : n - data.length = 0 := by omega
      simp [if_neg hd, h0]

/-- What `recvall` returns: the first `n` of the bytes available before
the peer's close — all of them when fewer than `n` are available. -/
theorem recvall_spec (s : List (List Nat)) (n : Nat) :
    (recvall s n).1 = (availBytes s).take n := by
  have := recvallLoop_spec n s []
  simpa [recvall] using this

theorem recvall_length (s : List (List Nat)) (n : Nat) :
    (recvall s n).1.length = min n (availBytes s).length := by
  rw [recvall_spec, List.length_take]

theorem recvall_length_le (s : List (List Nat)) (n : Nat) :
    (recvall s n).1.length ≤ n := by
  rw [recvall_length]
  omega

/-- `dictGet` after a `dictInsert`: the inserted key reads back the new
value, any other key is unaffected. -/
theorem dictGet_dictInsert (k k' : List Nat) (v : TVal) :
    ∀ d : Dict, dictGet (dictInsert d k v) k' =
      if k = k' then some v else dictGet d k' := by
  intro d
  induction d with
  | nil => by_cases h : k = k' <;> simp [dictInsert, dictGet, List.find?, h]
  | cons kv0 rest ih =>
    obtain ⟨k0, v0⟩ := kv0
    by_cases h0 : k0 = k
    · subst h0
      by_cases h' : k0 = k' <;>
        simp [dictInsert, dictGet, List.find?, h']
    · by_cases h' : k0 = k'
      · have hkk : k ≠ k' := fun hEq => h0 (h' ▸ hEq.symm ▸ rfl)
        subst h'
        simp [dictInsert, h0, dictGet, List.find?, hkk]
      · simp only [dictInsert, if_neg h0]
        simp [dictGet, List.find?, h'] at ih ⊢
        exact ih

/-- The value of the last field with key `k` in a field list (`none` when
no field has that key). -/
def lastVal (fields : Dict) (k : List Nat) : Option TVal :=
  fields.foldl (fun acc kv => if kv.1 = k then some kv.2 else acc) none

theorem lastVal_foldl (k : List Nat) :
    ∀ (fields : Dict) (acc : Option TVal),
    fields.foldl (fun acc kv => if kv.1 = k then some kv.2 else acc) acc =
      (lastVal fields k).or acc := by
  intro fields
  induction fields with
  | nil => intro acc; simp [lastVal]
  | cons kv rest ih =>
    intro acc
    show List.foldl _ (if kv.1 = k then some kv.2 else acc) rest = _
    rw [ih]
    have hR : lastVal (kv :: rest) k =
        (lastVal rest k).or (if kv.1 = k then some kv.2 else none) := by
      show List.foldl _ (if kv.1 = k then some kv.2 else none) rest = _
      rw [ih]
    rw [hR]
    rcases lastVal rest k with _ | w
    · by_cases h : kv.1 = k <;> simp [h, Option.or]
    · simp [Option.or]

/-- Reading a key from the result of the insertion loop: the last
occurrence in the field list wins, and keys absent from the list read
from the starting dict. -/
theorem dictGet_insertAll (k : List Nat) :
    ∀ (fields : Dict) (d : Dict),
    dictGet (insertAll d fields) k = (lastVal fields k).or (dictGet d k) := by
  intro fields
  induction fields with
  | nil => intro d; simp [insertAll, lastVal, Option.or]
  | cons kv rest ih =>
    intro d
    obtain ⟨k0, v0⟩ := kv
    show dictGet (insertAll (dictInsert d k0 v0) rest) k = _
    rw [ih, dictGet_dictInsert]
    have hR : lastVal ((k0, v0) :: rest) k =
        (lastVal rest k).or (if k0 = k then some v0 else none) := by
      show List.foldl _ (if k0 = k then some v0 else none) rest = _
      rw [lastVal_foldl]
    rw [hR]
    rcases lastVal rest k with _ | w
    · by_cases h : k0 = k <;> simp [h, Option.or]
    · simp [Option.or]

/-- A key longer than 65535 bytes makes its field's 2-byte key-length
pack (`struct.pack('!H', ·)`) raise, whatever the value. -/
theorem encodeField_error_long_key {k : List Nat} (v : TVal)
    (hlong : 65535 < k.length) :
    encodeField k v = .error .structError := by
  have hk : ¬ k.length < 2 ^ (8 * 2) := by
    have e : (2 : Nat) ^ (8 * 2) = 65536 := by norm_num
    omega
  cases v <;> simp only [encodeField] <;> unfold packBE <;>
    rw [if_neg hk] <;> rfl

/-- A message containing any over-long key never encodes: the field loop
stops at the first `struct.error` (possibly an earlier field's). -/
theorem encodeFields_error_of_long_key :
    ∀ (data : Dict) (k : List Nat) (v : TVal), (k, v) ∈ data →
    65535 < k.length → encodeFields data = .error .structError := by
  intro data
  induction data with
  | nil => intro k v hmem _; exact absurd hmem (by simp)
  | cons kv0 rest ih =>
    intro k v hmem hlong
    obtain ⟨k0, v0⟩ := kv0
    rcases List.mem_cons.mp hmem with hhd | htl
    · obtain ⟨hk, hv⟩ := Prod.mk.injEq .. ▸ (by exact hhd : (k, v) = (k0, v0))
      subst hk
      simp only [encodeFields]
      rw [encodeField_error_long_key v0 hlong]
      rfl
    · simp only [encodeFields]
      cases hf0 : encodeField k0 v0 with
      | error e => cases e; rfl
      | ok fb =>
        rw [ih k v htl hlong]
        rfl

/-- When the concatenated fields overflow the 32-bit frame header,
`struct.pack('!I', len(payload))` raises and `encode_message` fails. -/
theorem encode_message_error_of_big {m : Dict} {payload : List Nat}
    (hpl : encodeFields m = .ok payload) (hbig : 2 ^ 32 ≤ payload.length) :
    encode_message m = .error .structError := by
  have h' : ¬ payload.length < 2 ^ (8 * 4) := by
    have e : (2 : Nat) ^ (8 * 4) = 2 ^ 32 := by norm_num
    omega
  unfold encode_message
  rw [hpl]
  show (match packBE 4 payload.length with
    | some header => Except.ok (header ++ payload)
    | none => Except.error EncErr.structError) = _
  unfold packBE
  rw [if_neg h']

/-- A message meeting every per-field bound of the round-trip claim whose
two binary fields nevertheless push the total payload past `2^32 - 1`. -/
def bigMsg : Dict :=
  [([107], .binary (List.replicate 2147483648 0)),
   ([108], .binary (List.replicate 2147483648 0))]

/-- C1 (code_bug): at the 11-byte frame `00 00 00 07 00 00 05 00 00 00 10`
the declared length 7 is covered by the buffer, and the single field is a
binary field declaring 16 data bytes with 0 bytes remaining — the
remaining bytes are insufficient for the declared binary data.  The claim
says `decode_message` must fail with a `BufferUnderrun` error and never
return a partial mapping; the code instead slices best-effort, silently
truncates the data to `b""` and returns the garbage mapping
`{"": ("binary", b"")}`. -/
theorem claim_C1_truncated_binary_returns_garbage :
    decode_message [0, 0, 0, 7, 0, 0, 5, 0, 0, 0, 16] =
      .ok [([], .binary [])] := by
  have h1 : decode_message [0, 0, 0, 7, 0, 0, 5, 0, 0, 0, 16] =
      decodeLoop [0, 0, 5, 0, 0, 0, 16] 0 [] := rfl
  rw [h1, decodeLoop_unfold, if_pos (by norm_num)]
  rw [show parseField [0, 0, 5, 0, 0, 0, 16] 0 =
    .ok ([], TVal.binary [], 23) from rfl]
  show decodeLoop [0, 0, 5, 0, 0, 0, 16] 23 [([], TVal.binary [])] = _
  rw [decodeLoop_unfold, if_neg (by norm_num)]

/-- Any two-field binary message with `2^31`-byte values meets the
per-field bounds of the round-trip claim yet cannot be encoded: the
total payload is `2^32 + 16` bytes and the header pack raises. -/
theorem big_counterexample_aux (b : List Nat) (hb : b.length = 2147483648) :
    ((([([107], TVal.binary b), ([108], TVal.binary b)] : Dict).map
        Prod.fst).Nodup ∧
      ∀ kv ∈ ([([107], TVal.binary b), ([108], TVal.binary b)] : Dict),
        utf8Valid kv.1 = true ∧ kv.1.length ≤ 65535 ∧ valOK kv.2) ∧
    ∀ bs, ¬ (encode_message
        [([107], TVal.binary b), ([108], TVal.binary b)] = .ok bs ∧
      decode_message bs =
        .ok [([107], TVal.binary b), ([108], TVal.binary b)]) := by
  have hval : ∀ kv ∈ ([([107], TVal.binary b), ([108], TVal.binary b)] : Dict),
      utf8Valid kv.1 = true ∧ kv.1.length < 2 ^ 16 ∧ valOK kv.2 := by
    intro kv hm
    rcases List.mem_cons.mp hm with h | hm2
    · subst h
      exact ⟨by show utf8Valid [107] = true; decide,
        by show ([107] : List Nat).length < 2 ^ 16; norm_num,
        by show b.length < 2 ^ 32; omega⟩
    · rcases List.mem_cons.mp hm2 with h | hm3
      · subst h
        exact ⟨by show utf8Valid [108] = true; decide,
          by show ([108] : List Nat).length < 2 ^ 16; norm_num,
          by show b.length < 2 ^ 32; omega⟩
      · exact absurd hm3 (List.not_mem_nil kv)
  obtain ⟨payload, hpl⟩ := encodeFields_ok_of_valid
    (fun kv hm => ⟨(hval kv hm).2.1, (hval kv hm).2.2⟩)
  have hlen : payload.length = 4294967312 := by
    rw [encodeFields_ok_length hpl]
    simp [msgLen, valLen, hb]
  have herr : encode_message [([107], TVal.binary b), ([108], TVal.binary b)]
      = .error .structError :=
    encode_message_error_of_big hpl (by rw [hlen]; norm_num)
  refine ⟨⟨by simp, ?_⟩, ?_⟩
  · intro kv hm
    exact ⟨(hval kv hm).1, by have := (hval kv hm).2.1; omega,
      (hval kv hm).2.2⟩
  · intro bs h
    rw [herr] at h
    exact Except.noConfusion h.1

/-- C2 (counterexample): `bigMsg` satisfies every condition the claim
places on a "valid message" — distinct keys of at most 65535 UTF-8 bytes
and binary values of length at most `2^32 - 1` — yet
`decode_message(encode_message(bigMsg))` does not yield `bigMsg`:
`encode_message` already raises `struct.error` packing the 4-byte header,
because the total payload is `2^32 + 16` bytes. -/
theorem claim_C2_counterexample :
    ((bigMsg.map Prod.fst).Nodup ∧
      ∀ kv ∈ bigMsg, utf8Valid kv.1 = true ∧ kv.1.length ≤ 65535 ∧
        valOK kv.2) ∧
    ∀ bs, ¬ (encode_message bigMsg = .ok bs ∧
      decode_message bs = .ok bigMsg) :=
  big_counterexample_aux (List.replicate 2147483648 0)
    (by rw [List.length_replicate])

/-- C2 (amended): for every message with pairwise-distinct keys of valid
UTF-8 and at most 65535 bytes, values of the five kinds within their
64-bit / 32-bit-length bounds, and — the amendment — a total encoded
payload of at most `2^32 - 1` bytes, `encode_message` succeeds and
`decode_message` of the result yields exactly the original mapping. -/
theorem claim_C2_round_trip (m : Dict)
    (hnd : (m.map Prod.fst).Nodup)
    (hval : ∀ kv ∈ m,
      utf8Valid kv.1 = true ∧ kv.1.length < 2 ^ 16 ∧ valOK kv.2)
    (htot : msgLen m < 2 ^ 32) :
    ∃ frame, encode_message m = .ok frame ∧
      decode_message frame = .ok m :=
  roundTrip_aux hnd hval htot

/-- C2 witness: the round trip at a concrete message exercising all five
kinds with boundary values (minimum int64, maximum uint64, empty key and
empty string). -/
theorem claim_C2_witness :
    ∃ frame,
      encode_message [([97], .int64 (-9223372036854775808)),
        ([98], .uint64 18446744073709551615),
        ([], .str []),
        ([99], .binary [0, 255]),
        ([100, 101], .float64 4614253070214989087)] = .ok frame ∧
      decode_message frame =
        .ok [([97], .int64 (-9223372036854775808)),
          ([98], .uint64 18446744073709551615),
          ([], .str []),
          ([99], .binary [0, 255]),
          ([100, 101], .float64 4614253070214989087)] :=
  claim_C2_round_trip _ (by decide) (by decide) (by decide)

/-- C3: decoding any strict prefix of a frame produced by
`encode_message` fails — with the too-short error when the prefix does
not even cover the 4-byte header, and with the incomplete-message error
otherwise, because the declared length then exceeds the supplied buffer —
and in particular never returns a mapping. -/
theorem claim_C3_prefix_fails {m : Dict} {frame : List Nat}
    (henc : encode_message m = .ok frame) {k : Nat} (hk : k < frame.length) :
    decode_message (frame.take k) =
      .error (if k < 4 then .tooShort else .incomplete) :=
  decode_message_truncated henc hk

/-- C3 witness: the first 5 bytes of the encoded `{"age": int64 30}`
frame decode to the incomplete-message error. -/
theorem claim_C3_witness :
    decode_message (([0, 0, 0, 14, 0, 3, 97, 103, 101, 1,
        0, 0, 0, 0, 0, 0, 0, 30] : List Nat).take 5) =
      .error (if 5 < 4 then DecodeErr.tooShort else DecodeErr.incomplete) :=
  claim_C3_prefix_fails (m := [([97, 103, 101], TVal.int64 30)])
    (by rfl) (by norm_num)

/-- C4: `recv_message` reads up to 4 header bytes with the read-exact
loop and fails with the header-read `RuntimeError` when fewer arrive;
otherwise it reads the 4-byte big-endian length `L`, reads up to `L`
payload bytes with the read-exact loop, fails with the payload-read
`RuntimeError` when fewer arrive, and otherwise returns the decoding of
the reassembled `header ++ payload`. -/
theorem claim_C4_recv_message (s : List (List Nat)) :
    (recvall s 4).1.length ≤ 4 ∧
    ((recvall s 4).1.length < 4 →
      recv_message s = .error .headerReadFailed) ∧
    (∀ header s1, recvall s 4 = (header, s1) → header.length = 4 →
      (recvall s1 (beNat header)).1.length ≤ beNat header ∧
      ((recvall s1 (beNat header)).1.length < beNat header →
        recv_message s = .error .payloadReadFailed) ∧
      (∀ payload s2, recvall s1 (beNat header) = (payload, s2) →
        payload.length = beNat header →
        recv_message s =
          match decode_message (header ++ payload) with
          | .error e => .error (.decodeFailed e)
          | .ok d => .ok (d, s2))) := by
  refine ⟨recvall_length_le s 4, ?_, ?_⟩
  · intro hlt
    unfold recv_message
    rw [if_pos hlt]
  · intro header s1 hr h4
    refine ⟨recvall_length_le _ _, ?_, ?_⟩
    · intro hlt
      unfold recv_message
      rw [hr]
      dsimp only
      rw [if_neg (by omega), if_pos hlt]
    · intro payload s2 hpr hplen
      unfold recv_message
      rw [hr]
      dsimp only
      rw [if_neg (by omega), hpr]
      dsimp only
      rw [if_neg (by omega)]

/-- C5: the read-exact loop `recvall` never raises and returns exactly
the first `n` bytes the stream can deliver before the peer closes —
possibly fewer than `n`, namely `min n` (available bytes). -/
theorem claim_C5_recvall (s : List (List Nat)) (n : Nat) :
    (recvall s n).1 = (availBytes s).take n ∧
    (recvall s n).1.length = min n (availBytes s).length :=
  ⟨recvall_spec s n, recvall_length s n⟩

/-- C6: the message `{"age": ("int64", 30)}` encodes to exactly the 18
bytes `00 00 00 0E 00 03 61 67 65 01 00 00 00 00 00 00 00 1E`, and
decoding that byte string returns exactly `{"age": ("int64", 30)}`. -/
theorem claim_C6_concrete :
    encode_message [([97, 103, 101], .int64 30)] =
      .ok [0, 0, 0, 14, 0, 3, 97, 103, 101, 1, 0, 0, 0, 0, 0, 0, 0, 30] ∧
    decode_message [0, 0, 0, 14, 0, 3, 97, 103, 101, 1,
        0, 0, 0, 0, 0, 0, 0, 30] = .ok [([97, 103, 101], .int64 30)] := by
  constructor
  · rfl
  · have h1 : decode_message [0, 0, 0, 14, 0, 3, 97, 103, 101, 1,
        0, 0, 0, 0, 0, 0, 0, 30] =
        decodeLoop [0, 3, 97, 103, 101, 1, 0, 0, 0, 0, 0, 0, 0, 30] 0 [] :=
      rfl
    rw [h1, decodeLoop_unfold, if_pos (by norm_num)]
    rw [show parseField [0, 3, 97, 103, 101, 1, 0, 0, 0, 0, 0, 0, 0, 30] 0 =
      .ok ([97, 103, 101], TVal.int64 30, 14) from rfl]
    show decodeLoop [0, 3, 97, 103, 101, 1, 0, 0, 0, 0, 0, 0, 0, 30] 14
      [([97, 103, 101], TVal.int64 30)] = _
    rw [decodeLoop_unfold, if_neg (by norm_num)]

/-- C7: a frame whose declared length exactly covers its payload, and
whose payload consists of well-formed fields followed by a field whose
1-byte type code is outside {1,2,3,4,5}, makes `decode_message` fail with
the unknown-type-code `ValueError`. -/
theorem claim_C7_unknown_type (m : Dict) (bs : List Nat)
    (henc : encodeFields m = .ok bs) (hwf : fieldsWF m)
    (key : List Nat) (hkey : utf8Valid key = true)
    (hklen : key.length < 2 ^ 16) (tc : Nat)
    (htc : tc ≠ 1 ∧ tc ≠ 2 ∧ tc ≠ 3 ∧ tc ≠ 4 ∧ tc ≠ 5)
    (rest payload : List Nat)
    (hpay : payload = bs ++ (beBytes 2 key.length ++ (key ++ ([tc] ++ rest))))
    (hlen : payload.length < 2 ^ 32) :
    decode_message (beBytes 4 payload.length ++ payload) =
      .error .unknownTypeCode := by
  have hlt' : payload.length < 2 ^ (8 * 4) := by
    have e : (2 : Nat) ^ (8 * 4) = 2 ^ 32 := by norm_num
    omega
  have hd0 : (beBytes 4 payload.length ++ payload).drop 0 =
      beBytes 4 payload.length ++ payload := List.drop_zero _
  have hflen : (beBytes 4 payload.length ++ payload).length =
      4 + payload.length := by simp [length_beBytes]
  have e0 : pySlice (beBytes 4 payload.length ++ payload) 0 4 =
      beBytes 4 payload.length := by
    have := pySlice_block hd0 (length_beBytes 4 payload.length)
    simpa using this
  have hd4 : (beBytes 4 payload.length ++ payload).drop 4 = payload := by
    have := drop_block hd0 (length_beBytes 4 payload.length)
    simpa using this
  have e4 : pySlice (beBytes 4 payload.length ++ payload) 4
      (4 + payload.length) = payload := by
    have hd4' : (beBytes 4 payload.length ++ payload).drop 4 =
        payload ++ [] := by simp [hd4]
    have := pySlice_block hd4' rfl
    simpa using this
  unfold decode_message
  rw [if_neg (by omega), e0, beNat_beBytes_of_lt hlt', if_neg (by omega), e4]
  have hjunk : payload.drop 0 =
      bs ++ (beBytes 2 key.length ++ (key ++ ([tc] ++ rest))) := by
    rw [List.drop_zero, hpay]
  rw [decodeLoop_encoded_then m payload 0 [] bs _ henc hjunk hwf]
  have hdropb : payload.drop (0 + bs.length) =
      beBytes 2 key.length ++ (key ++ ([tc] ++ rest)) :=
    drop_block hjunk rfl
  have hoff : 0 + bs.length < payload.length := by
    have hld : (payload.drop (0 + bs.length)).length =
        (beBytes 2 key.length ++ (key ++ ([tc] ++ rest))).length := by
      rw [hdropb]
    simp [List.length_drop, length_beBytes] at hld
    omega
  rw [decodeLoop_unfold, if_pos hoff,
    parseField_unknownType hdropb hklen hkey htc]

/-- C7 witness: the frame `00 00 00 03 00 00 09` — an empty key followed
by type code 9 — decodes to the unknown-type-code error. -/
theorem claim_C7_witness :
    decode_message [0, 0, 0, 3, 0, 0, 9] = .error .unknownTypeCode :=
  claim_C7_unknown_type [] [] rfl (by intro kv hm; exact absurd hm (by simp))
    [] rfl (by norm_num) 9 (by norm_num) [] [0, 0, 9] rfl (by norm_num)

/-- C8: a frame of well-formed fields two or more of which share a key
decodes successfully — duplicate keys are not an error — and every key
reads back the value of its last occurrence in payload order. -/
theorem claim_C8_last_wins (fields : Dict) (bs : List Nat)
    (henc : encodeFields fields = .ok bs) (hwf : fieldsWF fields)
    (hlen : bs.length < 2 ^ 32)
    (hdup : ¬ (fields.map Prod.fst).Nodup) :
    ∃ d, decode_message (beBytes 4 bs.length ++ bs) = .ok d ∧
      ∀ k, dictGet d k = lastVal fields k := by
  have henc' := encode_message_ok_of henc hlen
  have hdec := decode_message_encoded henc' hwf
  refine ⟨insertAll [] fields, hdec, ?_⟩
  intro k
  rw [dictGet_insertAll]
  rcases lastVal fields k with _ | w <;>
    simp [Option.or, dictGet, List.find?]

/-- C8 witness: a frame holding `a=1` then `a=2` (both int64) decodes,
and the key `"a"` reads back 2. -/
theorem claim_C8_witness :
    ∃ d, decode_message [0, 0, 0, 24,
        0, 1, 97, 1, 0, 0, 0, 0, 0, 0, 0, 1,
        0, 1, 97, 1, 0, 0, 0, 0, 0, 0, 0, 2] = .ok d ∧
      ∀ k, dictGet d k =
        lastVal [([97], TVal.int64 1), ([97], TVal.int64 2)] k :=
  claim_C8_last_wins [([97], TVal.int64 1), ([97], TVal.int64 2)]
    [0, 1, 97, 1, 0, 0, 0, 0, 0, 0, 0, 1,
     0, 1, 97, 1, 0, 0, 0, 0, 0, 0, 0, 2]
    rfl (by unfold fieldsWF; decide) (by norm_num) (by decide)

/-- C9: encoding any message one of whose keys exceeds 65535 UTF-8 bytes
fails with `struct.error` from the 2-byte key-length pack (possibly from
an earlier field's own pack), so no frame — in particular none with a
wrapped or truncated key-length field — is ever returned. -/
theorem claim_C9_long_key (data : Dict) (k : List Nat) (v : TVal)
    (hmem : (k, v) ∈ data) (hlong : 65535 < k.length) :
    encode_message data = .error .structError := by
  have h := encodeFields_error_of_long_key data k v hmem hlong
  unfold encode_message
  rw [h]
  rfl

/-- C9 witness: a single field whose key is 65536 bytes of `"a"` makes
`encode_message` raise. -/
theorem claim_C9_witness :
    encode_message [(List.replicate 65536 97, TVal.int64 0)] =
      .error .structError :=
  claim_C9_long_key _ (List.replicate 65536 97) (TVal.int64 0)
    (List.mem_singleton.mpr rfl) (by rw [List.length_replicate]; norm_num)

/-- C10: bytes past the declared frame end are ignored: for a valid
message (distinct keys, well-typed in-range values, total payload within
the 32-bit header bound) and arbitrary trailing bytes `s`, decoding
`encode_message m ++ s` succeeds, equals decoding `encode_message m`
alone, and yields `m`. -/
theorem claim_C10_trailing_bytes (m : Dict) (s : List Nat)
    (hnd : (m.map Prod.fst).Nodup)
    (hval : ∀ kv ∈ m,
      utf8Valid kv.1 = true ∧ kv.1.length < 2 ^ 16 ∧ valOK kv.2)
    (htot : msgLen m < 2 ^ 32) :
    ∃ frame, encode_message m = .ok frame ∧
      decode_message (frame ++ s) = decode_message frame ∧
      decode_message (frame ++ s) = .ok m := by
  obtain ⟨frame, henc, hdec⟩ := roundTrip_aux hnd hval htot
  have happ := decode_message_append henc s
  exact ⟨frame, henc, happ, by rw [happ, hdec]⟩

/-- C10 witness: trailing garbage `[255, 0]` after the encoded
`{"k": uint64 5}` frame does not change the decode result. -/
theorem claim_C10_witness :
    ∃ frame, encode_message [([107], TVal.uint64 5)] = .ok frame ∧
      decode_message (frame ++ [255, 0]) = decode_message frame ∧
      decode_message (frame ++ [255, 0]) = .ok [([107], TVal.uint64 5)] :=
  claim_C10_trailing_bytes [([107], TVal.uint64 5)] [255, 0]
    (by decide) (by decide) (by decide)
